import Mathlib

/-!
Verification development for the chessgo engine's search core.

Shallow embedding of the Rust sources:
* `src/types/score.rs`   — `Score` (i32 centipawn value with mate encoding)
* `src/search/tt.rs`     — packed 64-bit transposition-table entries,
  move encoding, lock-free table modelled single-threaded as explicit state
* `src/search/see.rs`    — static exchange evaluation over a board model
* `src/search/qsearch.rs`— quiescence search over an abstract game tree
* `src/search/negamax.rs`— the node preamble (repetition, mate-distance,
  TT probe) and the in-loop pruning decisions

Machine integers are modelled as `Int`/`Nat`; the `as u16`/`as i16`/`as i8`
casts of the source are written out as explicit wraps (`% 2 ^ w` with sign
adjustment).  Bit shifts and masks by constant powers of two are written as
division and remainder (`x >>> 16` as `x / 65536`, `x &&& 0x3F` as `x % 64`);
the one mask whose operand is not syntactically a power of two,
`hash & (len - 1)` in `TranspositionTable::index`, is kept as `&&&`.
-/

namespace Chessgo

/-! ## Score (src/types/score.rs) -/

/-- Special score values, from `src/types/score.rs`. -/
def SCORE_NONE : Int := -32001

def SCORE_INFINITY : Int := 32000

def SCORE_MATE : Int := 31000

def SCORE_DRAW : Int := 0

def SCORE_MATE_IN_MAX : Int := SCORE_MATE - 1000

def SCORE_MATED_IN_MAX : Int := -SCORE_MATE + 1000

/-- `Score(pub i32)` of `src/types/score.rs`. -/
structure Score where
  raw : Int
deriving DecidableEq, Repr

/-- `Score::cp`. -/
def Score.cp (centipawns : Int) : Score := ⟨centipawns⟩

/-- `Score::mate_in`. -/
def Score.mate_in (ply : Int) : Score := ⟨SCORE_MATE - ply⟩

/-- `Score::mated_in`. -/
def Score.mated_in (ply : Int) : Score := ⟨-SCORE_MATE + ply⟩

/-- `Score::draw`. -/
def Score.draw : Score := ⟨SCORE_DRAW⟩

/-- `Score::neg_infinity`. -/
def Score.neg_infinity : Score := ⟨-SCORE_INFINITY⟩

/-- `Score::is_mate`. -/
def Score.is_mate (s : Score) : Bool := SCORE_MATE_IN_MAX ≤ s.raw

/-- `Score::is_mated`. -/
def Score.is_mated (s : Score) : Bool := s.raw ≤ SCORE_MATED_IN_MAX

/-- `Score::to_tt`: offset a mate score by the current ply for TT storage. -/
def Score.to_tt (s : Score) (ply : Int) : Score :=
  if s.is_mate then ⟨s.raw + ply⟩
  else if s.is_mated then ⟨s.raw - ply⟩
  else s

/-- `Score::from_tt`: undo the ply offset on TT retrieval. -/
def Score.from_tt (s : Score) (ply : Int) : Score :=
  if s.is_mate then ⟨s.raw - ply⟩
  else if s.is_mated then ⟨s.raw + ply⟩
  else s

/-! ## Pieces, moves and the 16-bit TT move encoding (src/search/tt.rs) -/

/-- The `chess::Piece` enum, in the crate's index order. -/
inductive Piece where
  | pawn
  | knight
  | bishop
  | rook
  | queen
  | king
deriving DecidableEq, Repr

/-- A `chess::ChessMove`: source square, destination square, optional
promotion piece.  Squares are indices `0..63` (a1 = 0, h8 = 63). -/
structure Move where
  source : Fin 64
  dest : Fin 64
  promotion : Option Piece
deriving DecidableEq, Repr

/-- `encode_move` of `src/search/tt.rs`: 16 bits, `from | to<<6 | promo<<12`
with promo 1..4 for knight/bishop/rook/queen and 0 otherwise; `None`
encodes to 0. -/
def encode_move (m : Option Move) : Nat :=
  match m with
  | some mv =>
    let promo : Nat :=
      match mv.promotion with
      | some Piece.knight => 1
      | some Piece.bishop => 2
      | some Piece.rook => 3
      | some Piece.queen => 4
      | _ => 0
    (mv.source : Nat) + (mv.dest : Nat) * 64 + promo * 4096
  | none => 0

/-- `decode_move` of `src/search/tt.rs`: 0 decodes to `None`; otherwise the
three fields are unpacked, with promotion bits outside 1..4 read as no
promotion. -/
def decode_move (encoded : Nat) : Option Move :=
  if encoded = 0 then none
  else
    let from_idx : Nat := encoded % 64
    let to_idx : Nat := encoded / 64 % 64
    let promo_bits : Nat := encoded / 4096 % 16
    let promo : Option Piece :=
      if promo_bits = 1 then some Piece.knight
      else if promo_bits = 2 then some Piece.bishop
      else if promo_bits = 3 then some Piece.rook
      else if promo_bits = 4 then some Piece.queen
      else none
    some ⟨⟨from_idx, Nat.mod_lt _ (by omega)⟩, ⟨to_idx, Nat.mod_lt _ (by omega)⟩, promo⟩

/-! ## TT entries (src/search/tt.rs) -/

/-- `BoundType` of `src/search/tt.rs`. -/
inductive BoundType where
  | noBound
  | exact
  | lowerBound
  | upperBound
deriving DecidableEq, Repr

/-- The `#[repr(u8)]` discriminant of `BoundType`. -/
def BoundType.toNat : BoundType → Nat
  | .noBound => 0
  | .exact => 1
  | .lowerBound => 2
  | .upperBound => 3

/-- `impl From<u8> for BoundType`: `v & 0x03` dispatched. -/
def BoundType.fromU8 (v : Nat) : BoundType :=
  if v % 4 = 1 then .exact
  else if v % 4 = 2 then .lowerBound
  else if v % 4 = 3 then .upperBound
  else .noBound

/-- Wrap an integer into i16 two's-complement range (the `as i16` cast). -/
def wrapI16 (z : Int) : Int := (z + 32768) % 65536 - 32768

/-- Wrap an integer into i8 two's-complement range (the `as i8` cast). -/
def wrapI8 (z : Int) : Int := (z + 128) % 256 - 128

/-- Reinterpret an i16 value as u16 (the `as u16` cast). -/
def toU16 (z : Int) : Nat := (z % 65536).toNat

/-- Reinterpret an i8 value as u8 (the `as u8` cast). -/
def toU8 (z : Int) : Nat := (z % 256).toNat

/-- Reinterpret a u16 bit pattern as i16. -/
def toI16 (n : Nat) : Int := if n % 65536 < 32768 then (n % 65536 : Nat) else (n % 65536 : Nat) - 65536

/-- Reinterpret a u8 bit pattern as i8. -/
def toI8 (n : Nat) : Int := if n % 256 < 128 then (n % 256 : Nat) else (n % 256 : Nat) - 256

/-- `TTEntry` of `src/search/tt.rs`: key u16, best_move u16, score i16,
depth i8, bound_and_age u8. -/
structure TTEntry where
  key : Nat
  best_move : Nat
  score : Int
  depth : Int
  bound_and_age : Nat
deriving DecidableEq, Repr

/-- `TTEntry::new`.  `hash >> 48` lands in u16; the score and depth are cast
to i16/i8; bound and (generation & 0x3F) are packed into one byte. -/
def TTEntry.new (hash : Nat) (bm : Option Move) (score : Score) (depth : Int)
    (bound : BoundType) (generation : Nat) : TTEntry where
  key := hash / 2 ^ 48 % 2 ^ 16
  best_move := encode_move bm
  score := wrapI16 score.raw
  depth := wrapI8 depth
  bound_and_age := bound.toNat + generation % 64 * 4

/-- `TTEntry::to_u64`: `key(16) | best_move(16) | score(16) | depth(8) |
bound_and_age(8)`. -/
def TTEntry.to_u64 (e : TTEntry) : Nat :=
  e.key * 2 ^ 48 + e.best_move * 2 ^ 32 + toU16 e.score * 2 ^ 16
    + toU8 e.depth * 2 ^ 8 + e.bound_and_age

/-- `TTEntry::from_u64`. -/
def TTEntry.from_u64 (raw : Nat) : TTEntry where
  key := raw / 2 ^ 48 % 2 ^ 16
  best_move := raw / 2 ^ 32 % 2 ^ 16
  score := toI16 (raw / 2 ^ 16)
  depth := toI8 (raw / 2 ^ 8)
  bound_and_age := raw % 2 ^ 8

/-- `TTEntry::matches`. -/
def TTEntry.matches (e : TTEntry) (hash : Nat) : Bool :=
  e.key = hash / 2 ^ 48 % 2 ^ 16

/-- `TTEntry::bound`. -/
def TTEntry.bound (e : TTEntry) : BoundType := BoundType.fromU8 e.bound_and_age

/-- `TTEntry::generation`. -/
def TTEntry.generation (e : TTEntry) : Nat := e.bound_and_age / 4

/-- `TTEntry::score` accessor (`Score::cp(self.score as i32)`). -/
def TTEntry.scoreOf (e : TTEntry) : Score := Score.cp e.score

/-- `TTEntry::depth` accessor (`Depth::new(self.depth as i32)`). -/
def TTEntry.depthOf (e : TTEntry) : Int := e.depth

/-- `TTEntry::best_move` accessor. -/
def TTEntry.bestMove (e : TTEntry) : Option Move := decode_move e.best_move

/-- `TTEntry::is_empty`. -/
def TTEntry.isEmptyEntry (e : TTEntry) : Bool := e.bound = BoundType.noBound

/-! ## The table (src/search/tt.rs), single-threaded state-passing model -/

/-- `TranspositionTable`: the vector of atomic 64-bit cells is modelled as a
function from index to packed word, together with the entry count and the
generation byte. -/
structure TranspositionTable where
  size : Nat
  data : Nat → Nat
  generationCounter : Nat

/-- Rust `usize::next_power_of_two` (0 and 1 both give 1): the least power
of two that is ≥ the argument. -/
def next_power_of_two (n : Nat) : Nat :=
  if n ≤ 1 then 1 else 2 ^ (Nat.log2 (n - 1) + 1)

/-- The entry count chosen by `TranspositionTable::new(size_mb)`:
`(size_mb * 1024 * 1024) / 8` rounded via `next_power_of_two() / 2`, with a
minimum of 1024. -/
def ttNumEntries (size_mb : Nat) : Nat :=
  max (next_power_of_two (size_mb * 1024 * 1024 / 8) / 2) 1024

/-- `TranspositionTable::new`: freshly allocated zeroed cells, generation 0. -/
def TranspositionTable.new (size_mb : Nat) : TranspositionTable where
  size := ttNumEntries size_mb
  data := fun _ => 0
  generationCounter := 0

/-- `TranspositionTable::generation`. -/
def TranspositionTable.generation (t : TranspositionTable) : Nat :=
  t.generationCounter

/-- `TranspositionTable::new_search`: `fetch_add(1)` on a `u8` wraps at 256. -/
def TranspositionTable.new_search (t : TranspositionTable) : TranspositionTable :=
  { t with generationCounter := (t.generationCounter + 1) % 256 }

/-- `TranspositionTable::index`: `(hash as usize) & (len - 1)`. -/
def TranspositionTable.index (t : TranspositionTable) (hash : Nat) : Nat :=
  hash &&& (t.size - 1)

/-- `TranspositionTable::probe`: read one word; 0 is a miss; otherwise the
entry counts only when the key fragment matches and the bound is set. -/
def TranspositionTable.probe (t : TranspositionTable) (hash : Nat) : Option TTEntry :=
  let raw := t.data (t.index hash)
  if raw = 0 then none
  else
    let e := TTEntry.from_u64 raw
    if e.matches hash ∧ ¬e.isEmptyEntry then some e else none

/-- `TranspositionTable::store`: replace when the cell is empty, from another
generation, or the new depth is ≥ the existing depth. -/
def TranspositionTable.store (t : TranspositionTable) (hash : Nat) (bm : Option Move)
    (score : Score) (depth : Int) (bound : BoundType) : TranspositionTable :=
  let idx := t.index hash
  let existing := TTEntry.from_u64 (t.data idx)
  let gen := t.generation
  let should_replace :=
    existing.isEmptyEntry ∨ existing.generation ≠ gen ∨ depth ≥ existing.depth
  if should_replace then
    let newEntry := TTEntry.new hash bm score depth bound gen
    { t with data := fun i => if i = idx then newEntry.to_u64 else t.data i }
  else t

/-- `hashfull` samples the first `min len 1000` cells and reports, in
permille, those that are non-empty and of the current generation. -/
def TranspositionTable.hashfull (t : TranspositionTable) : Nat :=
  let gen := t.generation
  let sample_size := min t.size 1000
  let used := (List.range sample_size).countP fun i =>
    let e := TTEntry.from_u64 (t.data i)
    ¬e.isEmptyEntry ∧ e.generation = gen
  used * 1000 / sample_size

/-- The table after `k` calls of `new_search()` on a freshly created
(cleared) table of `m` MB. -/
def newSearchIter (m : Nat) : Nat → TranspositionTable
  | 0 => TranspositionTable.new m
  | k + 1 => (newSearchIter m k).new_search

/-! ## Negamax node preamble (src/search/negamax.rs, lines 37-144)

The head of `search`: repetition detection with contempt, mate-distance
pruning, and the TT probe.  The board is abstracted to its Zobrist hash and
the searcher's repetition test to a boolean; everything downstream of these
checks runs only when the preamble yields `cont`. -/

/-- Outcome of the node preamble: an early return carrying a score and a
best move, or fall-through with the (possibly tightened) window and the TT
move. -/
inductive PreambleOut where
  | ret (score : Int) (best : Option Move)
  | cont (alpha beta : Int) (ttMove : Option Move)
deriving DecidableEq, Repr

/-- `CONTEMPT` of `src/search/negamax.rs`. -/
def CONTEMPT : Int := 10

/-- Lines 37-144 of `search`: repetition draw with contempt, mate-distance
pruning of the window, then the TT probe acting on the stored bound. -/
def searchPreamble (tt : TranspositionTable) (hash : Nat) (depth ply : Int)
    (isRepetition : Bool) (alpha0 beta0 : Int) : PreambleOut :=
  if ply > 0 ∧ isRepetition then
    let draw_score : Int :=
      if alpha0 > CONTEMPT then -CONTEMPT
      else if beta0 < -CONTEMPT then CONTEMPT
      else 0
    .ret draw_score none
  else
    let mate_score := SCORE_MATE - ply
    let mated_score := -SCORE_MATE + ply
    let alpha1 := if alpha0 < mated_score then mated_score else alpha0
    if alpha0 < mated_score ∧ alpha1 ≥ beta0 then .ret alpha1 none
    else
      let beta1 := if beta0 > mate_score then mate_score else beta0
      if beta0 > mate_score ∧ alpha1 ≥ beta1 then .ret beta1 none
      else
        match tt.probe hash with
        | some entry =>
          let tt_move := entry.bestMove
          if entry.depthOf ≥ depth then
            let tt_score := (entry.scoreOf.from_tt ply).raw
            match entry.bound with
            | .exact => .ret tt_score tt_move
            | .lowerBound =>
              if tt_score ≥ beta1 then .ret tt_score tt_move
              else
                let alpha2 := if tt_score > alpha1 then tt_score else alpha1
                .cont alpha2 beta1 tt_move
            | .upperBound =>
              if tt_score ≤ alpha1 then .ret tt_score tt_move
              else .cont alpha1 beta1 tt_move
            | .noBound => .cont alpha1 beta1 tt_move
          else .cont alpha1 beta1 tt_move
        | none => .cont alpha1 beta1 none

/-! ## Static eval caching and move-loop pruning (src/search/negamax.rs)

`static_eval` is computed in the RFP block when `!in_check && depth <= 7`
(lines 161-167) and, failing that, before razoring when
`depth <= 3 && !in_check` (lines 317-323).  The per-move pruning decisions
of the move loop (lines 383-418) are, in source order: history pruning,
quiet-SEE pruning, futility pruning. -/

/-- The two-stage computation of `static_eval` before the move loop.  The
actual evaluation is abstracted as the input `eval`; what is modelled is
exactly when the option is populated. -/
def staticEvalCache (inCheck : Bool) (depth : Int) (eval : Int) : Option Int :=
  let se0 : Option Int := if ¬inCheck ∧ depth ≤ 7 then some eval else none
  if se0 = none ∧ depth ≤ 3 ∧ ¬inCheck then some eval else se0

/-- Which pruning rule (if any) skips the current move of the negamax move
loop. -/
inductive PruneKind where
  | history
  | quietSee
  | futility
deriving DecidableEq, Repr

/-- Lines 383-418 of `search`: the first pruning rule that fires on the
current move, in source order (history, quiet-SEE, futility), or `none`
when the move is searched.  `histVal` is `searcher.history.get(color, m)`
and `seeGeNeg50` is `see_ge(board, m, -50)`. -/
def movePrune (depth : Int) (inCheck givesCheck isQuiet isKiller : Bool)
    (moveIdx : Nat) (histVal : Int) (seeGeNeg50 : Bool)
    (staticEval : Option Int) (alpha : Int) : Option PruneKind :=
  if depth < 4 ∧ isQuiet ∧ ¬inCheck ∧ ¬givesCheck ∧ ¬isKiller ∧ moveIdx > 0
      ∧ histVal < -3000 * depth then
    some .history
  else if depth ≤ 4 ∧ isQuiet ∧ ¬inCheck ∧ ¬givesCheck ∧ moveIdx > 0
      ∧ ¬seeGeNeg50 then
    some .quietSee
  else
    match staticEval with
    | some se =>
      if isQuiet ∧ ¬givesCheck ∧ moveIdx > 0 ∧ se + 150 * depth < alpha then
        some .futility
      else none
    | none => none

/-! ## Quiescence search (src/search/qsearch.rs)

The board and move generator are abstracted to a finite game tree: a node
carries the static evaluation the incremental evaluator would return, the
in-check flag, and the generated legal moves, each move paired with the
child node produced by `make_move_new`.  Per-move data records what the
code reads off the board: the piece at the destination (`board.piece_at`),
the en-passant flag, `is_promotion()`, and the `is_good_capture` SEE
verdict.  Node statistics, timing, and the cooperative stop flag are not
modelled (a stop only breaks the loop early, which the claims do not
touch).  Move ordering permutes the capture list and is not modelled; the
claims here are about bounds and membership, which ordering preserves. -/

/-- `PIECE_VALUES` of `src/search/qsearch.rs` (king 0: never captured). -/
def qsearchPieceValue : Piece → Int
  | .pawn => 100
  | .knight => 320
  | .bishop => 330
  | .rook => 500
  | .queen => 900
  | .king => 0

/-- `DELTA_MARGIN` of `src/search/qsearch.rs`. -/
def DELTA_MARGIN : Int := 600

/-- `DELTA_SAFETY` of `src/search/qsearch.rs`. -/
def DELTA_SAFETY : Int := 100

/-- Abstracted per-move board facts consumed by `quiescence`. -/
structure QMoveData where
  victim : Option Piece
  enPassant : Bool
  isPromo : Bool
  goodCap : Bool
deriving DecidableEq, Repr

/-- Modelled from the spec: `ChessMove::is_capture` comes from the external
move-generator crate (only its call sites are under `src/`); per standard
chess semantics a move is a capture exactly when its destination square is
occupied by an opposing piece or it is an en-passant capture. -/
def QMoveData.is_cap (m : QMoveData) : Bool := m.victim.isSome || m.enPassant

/-- `capturedance value: `board.piece_at(m.to()).map(piece_value).unwrap_or(0)`. -/
def QMoveData.capturedValue (m : QMoveData) : Int :=
  match m.victim with
  | some p => qsearchPieceValue p
  | none => 0

/-- A search position abstracted for quiescence: static eval, check flag,
and the legal moves with their successor positions. -/
inductive QTree where
  | node (eval : Int) (inCheck : Bool) (moves : List (QMoveData × QTree))
deriving Repr

/-- The moves of a node. -/
def QTree.moves : QTree → List (QMoveData × QTree)
  | .node _ _ ms => ms

/-- Filtering a list never increases its `sizeOf`; used for termination of
the quiescence recursion. -/
lemma sizeOf_filter_le {α : Type} [SizeOf α] (p : α → Bool) (l : List α) :
    sizeOf (l.filter p) ≤ sizeOf l := by
  induction l with
  | nil => simp [List.filter]
  | cons a r ih =>
    by_cases h : p a <;> simp [List.filter, h] <;> omega

mutual

/-- `quiescence` of `src/search/qsearch.rs`: stand-pat beta cutoff, big-delta
pruning, alpha raise, capture filter, then the capture loop. -/
def quiescence : QTree → Int → Int → Int
  | .node stand_pat in_check ms, alpha, beta =>
    if stand_pat ≥ beta then beta
    else if ¬in_check ∧ stand_pat + DELTA_MARGIN < alpha then alpha
    else
      let alpha1 := if stand_pat > alpha then stand_pat else alpha
      let captures := ms.filter fun mc => mc.1.is_cap
      if captures.isEmpty then alpha1
      else qloop stand_pat in_check beta captures alpha1 stand_pat
termination_by t _ _ => sizeOf t
decreasing_by
  have := sizeOf_filter_le (fun mc : QMoveData × QTree => mc.1.is_cap) ms
  simp only [QTree.node.sizeOf_spec]
  omega

/-- The `for i in 0..moves.len()` loop of `quiescence`: per-move delta
pruning, SEE pruning, negamax recursion, best/alpha updates and the beta
cutoff break. -/
def qloop (stand_pat : Int) (in_check : Bool) (beta : Int)
    (ms : List (QMoveData × QTree)) (alpha best_score : Int) : Int :=
  match ms with
  | [] => best_score
  | (m, child) :: rest =>
    if ¬in_check ∧ ¬m.isPromo ∧ stand_pat + m.capturedValue + DELTA_SAFETY < alpha then
      qloop stand_pat in_check beta rest alpha best_score
    else if ¬in_check ∧ ¬m.goodCap then
      qloop stand_pat in_check beta rest alpha best_score
    else
      let score := -(quiescence child (-beta) (-alpha))
      if score > best_score then
        if score > alpha then
          if score ≥ beta then score
          else qloop stand_pat in_check beta rest score score
        else qloop stand_pat in_check beta rest alpha score
      else qloop stand_pat in_check beta rest alpha best_score
termination_by sizeOf ms
decreasing_by all_goals simp <;> omega

end

/-- The set of moves the quiescence loop iterates over: the legal moves
filtered by `is_capture` (line 91-93 of `src/search/qsearch.rs`). -/
def consideredCaptures (t : QTree) : List QMoveData :=
  (t.moves.filter fun mc => mc.1.is_cap).map Prod.fst

/-! ## Static exchange evaluation (src/search/see.rs)

The board is a placement function plus side to move; bitboards become
finite sets of squares.  The attack primitives (`chess::get_pawn_attacks`,
`get_knight_moves`, `get_bishop_moves`, `get_rook_moves`,
`get_king_moves`) belong to the external move-generator crate and are
modelled by the standard chess attack semantics: leapers by coordinate
deltas, sliders by an empty-ray test against the occupancy mask. -/

/-- `Color` of the chess crate. -/
inductive Color where
  | white
  | black
deriving DecidableEq, Repr

/-- The `!` operator on `Color`. -/
def Color.flip : Color → Color
  | .white => .black
  | .black => .white

/-- `SEE_VALUES` of `src/search/see.rs`: P, N, B, R, Q, K. -/
def see_piece_value : Piece → Int
  | .pawn => 100
  | .knight => 300
  | .bishop => 300
  | .rook => 500
  | .queen => 900
  | .king => 20000

/-- A chess board as SEE consumes it: piece placement and side to move. -/
structure Board where
  pieceOn : Fin 64 → Option (Color × Piece)
  sideToMove : Color

/-- `board.combined()`: the set of occupied squares. -/
def Board.combined (b : Board) : Finset (Fin 64) :=
  Finset.univ.filter fun s => (b.pieceOn s).isSome

/-- File (0..7) of a square index, as an integer. -/
def fileOf (s : Fin 64) : Int := (s : Nat) % 8

/-- Rank (0..7) of a square index, as an integer. -/
def rankOf (s : Fin 64) : Int := (s : Nat) / 8

/-- Square from file/rank integer coordinates (callers stay in range; the
modulus only discharges the bound). -/
def mkSq (f r : Int) : Fin 64 := ⟨(r * 8 + f).toNat % 64, Nat.mod_lt _ (by omega)⟩

/-- Sign of an integer, for ray stepping. -/
def stepSign (z : Int) : Int := if z > 0 then 1 else if z < 0 then -1 else 0

/-- All squares strictly between two aligned squares are unoccupied: the
blocking test of the sliding attack primitives. -/
def clearBetween (occ : Finset (Fin 64)) (a b : Fin 64) : Bool :=
  let df := fileOf b - fileOf a
  let dr := rankOf b - rankOf a
  let n := max df.natAbs dr.natAbs
  (List.range (n - 1)).all fun i =>
    decide (mkSq (fileOf a + (i + 1) * stepSign df) (rankOf a + (i + 1) * stepSign dr) ∉ occ)

/-- A pawn of the given color standing on `s` attacks `t`. -/
def pawnAttack (c : Color) (s t : Fin 64) : Bool :=
  let dir : Int := match c with | .white => 1 | .black => -1
  decide (rankOf t = rankOf s + dir ∧ (fileOf t - fileOf s).natAbs = 1)

/-- A knight on `s` attacks `t`. -/
def knightAttack (s t : Fin 64) : Bool :=
  let df := (fileOf t - fileOf s).natAbs
  let dr := (rankOf t - rankOf s).natAbs
  decide ((df = 1 ∧ dr = 2) ∨ (df = 2 ∧ dr = 1))

/-- A king on `s` attacks `t`. -/
def kingAttack (s t : Fin 64) : Bool :=
  let df := (fileOf t - fileOf s).natAbs
  let dr := (rankOf t - rankOf s).natAbs
  decide (df ≤ 1 ∧ dr ≤ 1 ∧ ¬(df = 0 ∧ dr = 0))

/-- A bishop on `s` attacks `t` through occupancy `occ`. -/
def bishopAttack (occ : Finset (Fin 64)) (s t : Fin 64) : Bool :=
  decide ((fileOf t - fileOf s).natAbs = (rankOf t - rankOf s).natAbs ∧ s ≠ t)
    && clearBetween occ s t

/-- A rook on `s` attacks `t` through occupancy `occ`. -/
def rookAttack (occ : Finset (Fin 64)) (s t : Fin 64) : Bool :=
  decide ((fileOf t = fileOf s ∨ rankOf t = rankOf s) ∧ s ≠ t)
    && clearBetween occ s t

/-- Whether a piece of the given type and color on `s` attacks `t` under
occupancy `occ` (queen = bishop or rook rays). -/
def pieceAttack (p : Piece) (c : Color) (occ : Finset (Fin 64)) (s t : Fin 64) : Bool :=
  match p with
  | .pawn => pawnAttack c s t
  | .knight => knightAttack s t
  | .bishop => bishopAttack occ s t
  | .rook => rookAttack occ s t
  | .queen => bishopAttack occ s t || rookAttack occ s t
  | .king => kingAttack s t

/-- `get_piece_attacks` of `src/search/see.rs`: the squares, in ascending
index order, holding a piece of type `p` and color `side` that is still in
the occupancy mask and attacks `target`. -/
def get_piece_attacks (b : Board) (target : Fin 64) (p : Piece) (side : Color)
    (occ : Finset (Fin 64)) : List (Fin 64) :=
  (List.finRange 64).filter fun s =>
    decide (s ∈ occ) &&
      (match b.pieceOn s with
       | some (c, q) => decide (c = side ∧ q = p)
       | none => false) &&
      pieceAttack p side occ s target

/-- `get_lva` of `src/search/see.rs`: scan piece types from least to most
valuable; `BitBoard::to_square` picks the lowest set square, here the head
of the ascending list. -/
def get_lva (b : Board) (sq : Fin 64) (side : Color) (occ : Finset (Fin 64)) :
    Option (Fin 64 × Piece) :=
  [Piece.pawn, Piece.knight, Piece.bishop, Piece.rook, Piece.queen, Piece.king].findSome?
    fun p => (get_piece_attacks b sq p side occ).head?.map fun s => (s, p)

/-- A found least-valuable attacker is in the occupancy mask (termination
of the exchange simulation). -/
lemma get_lva_mem_occ {b : Board} {sq : Fin 64} {side : Color}
    {occ : Finset (Fin 64)} {s : Fin 64} {p : Piece}
    (h : get_lva b sq side occ = some (s, p)) : s ∈ occ := by
  unfold get_lva at h
  obtain ⟨q, -, hq⟩ := List.exists_of_findSome?_eq_some h
  rw [Option.map_eq_some'] at hq
  obtain ⟨s', hs', heq⟩ := hq
  have hfst : s' = s := congrArg Prod.fst heq
  have hsnd : q = p := congrArg Prod.snd heq
  have hmem := List.mem_of_mem_head? hs'
  rw [hfst, hsnd] at hmem
  unfold get_piece_attacks at hmem
  rw [List.mem_filter] at hmem
  have h2 := hmem.2
  simp only [Bool.and_eq_true, decide_eq_true_eq] at h2
  exact h2.1.1

/-- The simulation loop of `see` (lines 102-121): repeatedly take the least
valuable attacker off the occupancy, pushing the value standing on the
target at each step; a king capture ends the sequence. -/
def seeLoop (b : Board) (target : Fin 64) (side : Color) (occ : Finset (Fin 64))
    (last_value : Int) : List Int :=
  match h : get_lva b target side occ with
  | none => []
  | some (sq, p) =>
    if p = Piece.king then [last_value]
    else last_value :: seeLoop b target side.flip (occ.erase sq) (see_piece_value p)
termination_by occ.card
decreasing_by
  exact Finset.card_erase_lt_of_mem (get_lva_mem_occ h)

/-- The swap stack built by `see`: initial victim value (plus promotion
delta), then the values revealed by the simulation.  The `return 0` paths
(no attacker, or a non-pawn move to an empty square) yield the stack `[0]`
so that the fold returns 0 exactly as the source does. -/
def seeGains (b : Board) (mv : Move) : List Int :=
  match b.pieceOn mv.source with
  | none => [0]
  | some (_, attacker) =>
    let victimValue : Option Int :=
      match b.pieceOn mv.dest with
      | some (_, v) => some (see_piece_value v)
      | none =>
        if attacker = Piece.pawn then some (see_piece_value Piece.pawn) else none
    match victimValue with
    | none => [0]
    | some g0 =>
      let gain :=
        match mv.promotion with
        | some promo => g0 + see_piece_value promo - see_piece_value Piece.pawn
        | none => g0
      gain :: seeLoop b mv.dest b.sideToMove.flip
        (b.combined.erase mv.source) (see_piece_value attacker)

/-- The tail fold of `see` (lines 124-130): `g[i-1] <- max(g[i-1], -g[i])`
from the end; an empty stack yields 0 (`unwrap_or(0)`). -/
def seeFold : List Int → Int
  | [] => 0
  | [x] => x
  | x :: y :: rest => max x (-(seeFold (y :: rest)))

/-- `see` of `src/search/see.rs`. -/
def see (b : Board) (mv : Move) : Int := seeFold (seeGains b mv)

/-- `see_ge` of `src/search/see.rs`. -/
def see_ge (b : Board) (mv : Move) (threshold : Int) : Bool :=
  see b mv ≥ threshold

/-- `is_good_capture` of `src/search/see.rs`. -/
def is_good_capture (b : Board) (mv : Move) : Bool := see_ge b mv 0

/-- Alternating sum: the initiating side's material balance when the swap
stack `l` is played out in full. -/
def altSum : List Int → Int
  | [] => 0
  | x :: rest => x - altSum rest

/-- The initiator's material balance on the destination square when the
exchange stops after `j` replies: the alternating sum of the first `j + 1`
entries of the swap stack (reply `i` recaptures the value `gains[i]`). -/
def exchangeBalance (b : Board) (mv : Move) (j : Nat) : Int :=
  altSum ((seeGains b mv).take (j + 1))

/-! ## Helper lemmas -/

/-- Every SEE piece value is at least a pawn's worth. -/
lemma see_piece_value_ge (p : Piece) : 100 ≤ see_piece_value p := by
  cases p <;> simp [see_piece_value]

/-- Decoding inverts encoding for a move whose promotion is one of the four
encodable pieces (or absent) and whose encoding is not the all-zero alias. -/
lemma decode_encode (mv : Move)
    (hp : mv.promotion = none ∨ mv.promotion = some Piece.knight ∨
      mv.promotion = some Piece.bishop ∨ mv.promotion = some Piece.rook ∨
      mv.promotion = some Piece.queen)
    (hz : ¬((mv.source : Nat) = 0 ∧ (mv.dest : Nat) = 0 ∧ mv.promotion = none)) :
    decode_move (encode_move (some mv)) = some mv := by
  obtain ⟨src, dst, promo⟩ := mv
  have hs : (src : Nat) < 64 := src.isLt
  have hd : (dst : Nat) < 64 := dst.isLt
  simp only at hp hz
  have hz' : promo = none → ¬((src : Nat) = 0 ∧ (dst : Nat) = 0) := by
    intro hpn hc
    exact hz ⟨hc.1, hc.2, hpn⟩
  rcases hp with h | h | h | h | h <;> subst h <;>
    simp only [encode_move, decode_move] <;>
    rw [if_neg (by first | exact fun hc => hz' rfl (by omega) | omega)] <;>
    simp only [Option.some.injEq, Move.mk.injEq, Fin.ext_iff, Fin.val_mk] <;>
    refine ⟨by omega, by omega, ?_⟩ <;>
    split_ifs <;> first | rfl | (exfalso; omega)

/-- The encoding of any move fits in 16 bits. -/
lemma encode_move_lt (m : Option Move) : encode_move m < 2 ^ 16 := by
  match m with
  | none => simp [encode_move]
  | some mv =>
    obtain ⟨src, dst, promo⟩ := mv
    have hs : (src : Nat) < 64 := src.isLt
    have hd : (dst : Nat) < 64 := dst.isLt
    simp only [encode_move]
    rcases promo with - | p
    · simpa using by omega
    · cases p <;> simpa using by omega

/-- Packing then unpacking a TT entry is the identity when the fields are in
their machine-integer ranges. -/
lemma from_u64_to_u64 (e : TTEntry) (hk : e.key < 2 ^ 16) (hb : e.best_move < 2 ^ 16)
    (hs1 : -32768 ≤ e.score) (hs2 : e.score < 32768)
    (hd1 : -128 ≤ e.depth) (hd2 : e.depth < 128)
    (ha : e.bound_and_age < 2 ^ 8) :
    TTEntry.from_u64 e.to_u64 = e := by
  obtain ⟨k, bmv, sc, dp, ba⟩ := e
  simp only at hk hb hs1 hs2 hd1 hd2 ha
  simp only [TTEntry.from_u64, TTEntry.to_u64, toU16, toU8, toI16, toI8, TTEntry.mk.injEq]
  refine ⟨by omega, by omega, ?_, ?_, by omega⟩
  · split_ifs <;> omega
  · split_ifs <;> omega

/-- The quiescence capture loop never returns less than the running best
score it starts from. -/
lemma qloop_ge_best (stand_pat : Int) (in_check : Bool) (beta : Int)
    (ms : List (QMoveData × QTree)) :
    ∀ alpha best_score : Int,
      best_score ≤ qloop stand_pat in_check beta ms alpha best_score := by
  induction ms with
  | nil => intro alpha best; simp [qloop]
  | cons mc rest ih =>
    intro alpha best
    obtain ⟨m, child⟩ := mc
    simp only [qloop]
    split_ifs with h1 h2 h3 h4 h5
    · exact ih alpha best
    · exact ih alpha best
    · omega
    · exact le_trans (le_of_lt h3) (ih _ _)
    · exact le_trans (le_of_lt h3) (ih _ _)
    · exact ih alpha best

/-- Unpacking `bound | (gen & 0x3F) << 2` recovers the bound tag. -/
lemma fromU8_pack (b : BoundType) (g : Nat) :
    BoundType.fromU8 (b.toNat + g % 64 * 4) = b := by
  cases b <;> simp only [BoundType.toNat, BoundType.fromU8] <;>
    split_ifs <;> first | rfl | (exfalso; omega)

/-- The two-stage `static_eval` cache is populated exactly when the node is
not in check and the depth is at most 7. -/
lemma staticEvalCache_eq_some (ic : Bool) (d ev se : Int) :
    staticEvalCache ic d ev = some se ↔ (ic = false ∧ d ≤ 7 ∧ se = ev) := by
  cases ic <;> unfold staticEvalCache <;> split_ifs <;> simp_all <;> omega

/-! ## Claim theorems -/

/-- C5: for every ply `p` (0 ≤ p ≤ MAX_PLY), offsetting a mate score by the
current ply for TT storage and undoing the offset on retrieval is the
identity: `Score::mate_in(p).to_tt(p).from_tt(p) == Score::mate_in(p)`, and
likewise for `mated_in`. -/
theorem mate_score_tt_roundtrip (p : Int) (h0 : 0 ≤ p) (h1 : p ≤ 256) :
    ((Score.mate_in p).to_tt p).from_tt p = Score.mate_in p ∧
    ((Score.mated_in p).to_tt p).from_tt p = Score.mated_in p := by
  unfold Score.mate_in Score.mated_in Score.to_tt Score.from_tt Score.is_mate
    Score.is_mated SCORE_MATE_IN_MAX SCORE_MATED_IN_MAX SCORE_MATE
  constructor <;> (split_ifs <;> simp_all <;> omega)

/-- C5 witness: the round trip at ply 5. -/
theorem mate_score_tt_roundtrip_witness :
    ((Score.mate_in 5).to_tt 5).from_tt 5 = Score.mate_in 5 ∧
    ((Score.mated_in 5).to_tt 5).from_tt 5 = Score.mated_in 5 :=
  mate_score_tt_roundtrip 5 (by decide) (by decide)

/-- C6 counterexample: after 64 `new_search()` calls on a cleared table, the
generation reported by `generation()` is 64, not `64 mod 64 = 0`: the `u8`
counter wraps at 256, not at 64. -/
theorem generation_counter_cx : (newSearchIter 1 64).generation ≠ 64 % 64 := by
  decide

/-- C6 amended: after `k` `new_search()` calls on a cleared table,
`generation()` reports `k mod 256`; entries stored at that moment carry the
six-bit tag `k mod 64` (agreeing with `generation()` only while
`k mod 256 < 64`). -/
theorem generation_counter_mod (m k : Nat) :
    (newSearchIter m k).generation = k % 256 ∧
    ∀ (hash : Nat) (bm : Option Move) (s : Score) (d : Int) (b : BoundType),
      (TTEntry.new hash bm s d b ((newSearchIter m k).generation)).generation = k % 64 := by
  have hgen : (newSearchIter m k).generation = k % 256 := by
    induction k with
    | zero => simp [newSearchIter, TranspositionTable.new, TranspositionTable.generation]
    | succ n ih =>
      simp only [newSearchIter, TranspositionTable.new_search, TranspositionTable.generation] at *
      omega
  refine ⟨hgen, fun hash bm s d b => ?_⟩
  rw [hgen]
  have hlt : b.toNat < 4 := by cases b <;> simp [BoundType.toNat]
  simp only [TTEntry.new, TTEntry.generation]
  omega

/-- C9: the 16-bit TT move encoding round-trips with the single all-zero
alias: `encode_move(None) = 0`, `decode_move(0) = None`, and every move with
an encodable promotion (none/N/B/R/Q) other than the a1-to-a1 non-promotion
decodes back to itself. -/
theorem tt_move_encoding_roundtrip :
    encode_move none = 0 ∧ decode_move 0 = none ∧
    ∀ mv : Move,
      (mv.promotion = none ∨ mv.promotion = some Piece.knight ∨
        mv.promotion = some Piece.bishop ∨ mv.promotion = some Piece.rook ∨
        mv.promotion = some Piece.queen) →
      ¬((mv.source : Nat) = 0 ∧ (mv.dest : Nat) = 0 ∧ mv.promotion = none) →
      decode_move (encode_move (some mv)) = some mv :=
  ⟨rfl, rfl, decode_encode⟩

/-- C9 witness: the move e2e4 (squares 12 and 28, no promotion). -/
theorem tt_move_encoding_roundtrip_witness :
    decode_move (encode_move (some ⟨12, 28, none⟩)) = some ⟨12, 28, none⟩ :=
  tt_move_encoding_roundtrip.2.2 ⟨12, 28, none⟩ (Or.inl rfl) (by decide)

/-- C10: for every requested hash size (up to the no-overflow range of the
`usize` arithmetic), the allocated entry count is a power of two and at
least 1024, `index` is always in bounds, and the `hashfull` sample size is
nonzero. -/
theorem tt_size_pow2_safety (size_mb : Nat) (h : size_mb ≤ 2 ^ 40) :
    (∃ k, ttNumEntries size_mb = 2 ^ k) ∧
    1024 ≤ ttNumEntries size_mb ∧
    (∀ hash : Nat, (TranspositionTable.new size_mb).index hash < ttNumEntries size_mb) ∧
    0 < min (ttNumEntries size_mb) 1000 := by
  have hpow : ∃ k, next_power_of_two (size_mb * 1024 * 1024 / 8) = 2 ^ k := by
    unfold next_power_of_two
    split_ifs
    · exact ⟨0, rfl⟩
    · exact ⟨_, rfl⟩
  obtain ⟨k, hk⟩ := hpow
  have hmain : ∃ j, ttNumEntries size_mb = 2 ^ j := by
    unfold ttNumEntries
    rw [hk]
    cases k with
    | zero => exact ⟨10, by norm_num⟩
    | succ n =>
      have h2 : 2 ^ (n + 1) / 2 = 2 ^ n := by
        rw [pow_succ]
        exact Nat.mul_div_cancel _ (by norm_num)
      rw [h2]
      by_cases hn : n ≤ 10
      · refine ⟨10, ?_⟩
        have hle : 2 ^ n ≤ 1024 := by
          calc 2 ^ n ≤ 2 ^ 10 := Nat.pow_le_pow_right (by norm_num) hn
          _ = 1024 := by norm_num
        rw [Nat.max_eq_right hle]
        norm_num
      · refine ⟨n, Nat.max_eq_left ?_⟩
        calc 1024 = 2 ^ 10 := by norm_num
        _ ≤ 2 ^ n := Nat.pow_le_pow_right (by norm_num) (by omega)
  have h1024 : 1024 ≤ ttNumEntries size_mb := by
    unfold ttNumEntries
    exact Nat.le_max_right _ _
  refine ⟨hmain, h1024, ?_, by omega⟩
  intro hash
  have hle : (TranspositionTable.new size_mb).index hash ≤ ttNumEntries size_mb - 1 := by
    simp only [TranspositionTable.index, TranspositionTable.new]
    exact Nat.and_le_right
  omega

/-- C10 witness: the default-adjacent 16 MB request. -/
theorem tt_size_pow2_safety_witness :
    (∃ k, ttNumEntries 16 = 2 ^ k) ∧
    1024 ≤ ttNumEntries 16 ∧
    (∀ hash : Nat, (TranspositionTable.new 16).index hash < ttNumEntries 16) ∧
    0 < min (ttNumEntries 16) 1000 :=
  tt_size_pow2_safety 16 (by norm_num)

/-- C1: `see` is the tail fold `g[i-1] <- max(g[i-1], -g[i])` of the swap
stack, and whenever `see(P, m) ≥ 0` there is a reply sequence on the
destination square (stopping after `j` replies) in which the initiating
side does not lose material.  The opponent declining to recapture already
leaves the initiator the (non-negative) first gain. -/
theorem see_nonneg_nonlosing_reply (b : Board) (mv : Move) :
    see b mv = seeFold (seeGains b mv) ∧
    (0 ≤ see b mv → ∃ j, 0 ≤ exchangeBalance b mv j) := by
  refine ⟨rfl, fun _ => ⟨0, ?_⟩⟩
  unfold exchangeBalance
  rcases hsrc : b.pieceOn mv.source with - | ⟨c, attacker⟩
  · simp [seeGains, hsrc, altSum]
  · rcases hdst : b.pieceOn mv.dest with - | ⟨c2, victim⟩
    · by_cases hpa : attacker = Piece.pawn
      · rcases hpr : mv.promotion with - | pr
        · have hv := see_piece_value_ge Piece.pawn
          simp [seeGains, hsrc, hdst, hpa, hpr, altSum]
          omega
        · have hv := see_piece_value_ge pr
          simp only [seeGains, hsrc, hdst, hpa, hpr, if_pos rfl]
          simp [altSum]
          omega
      · simp [seeGains, hsrc, hdst, hpa, altSum]
    · rcases hpr : mv.promotion with - | pr
      · have hv := see_piece_value_ge victim
        simp [seeGains, hsrc, hdst, hpr, altSum]
        omega
      · have hv1 := see_piece_value_ge victim
        have hv2 := see_piece_value_ge pr
        have hv3 : see_piece_value Piece.pawn = 100 := rfl
        simp only [seeGains, hsrc, hdst, hpr]
        simp [altSum]
        omega

/-- C1 witness: a non-capture on an empty board has `see = 0 ≥ 0`, and the
empty reply sequence loses nothing. -/
theorem see_nonneg_nonlosing_reply_witness :
    ∃ j, 0 ≤ exchangeBalance ⟨fun _ => none, Color.white⟩ ⟨0, 1, none⟩ j :=
  (see_nonneg_nonlosing_reply ⟨fun _ => none, Color.white⟩ ⟨0, 1, none⟩).2 (by decide)

/-- C2 counterexample: with the side to move not in check, stand-pat 100 and
window (40, 50), quiescence returns the fail-hard `beta = 50`, which is
below the stand-pat evaluation, refuting `result ≥ stand_pat`. -/
theorem qsearch_standpat_cx :
    quiescence (QTree.node 100 false []) 40 50 = 50 ∧
    ¬(100 ≤ quiescence (QTree.node 100 false []) 40 50) := by
  have h : quiescence (QTree.node 100 false []) 40 50 = 50 := by
    simp [quiescence]
  exact ⟨h, by omega⟩

/-- C2 amended: when not in check the quiescence result is bounded below by
`min(stand_pat, beta)`: if stand-pat is below beta the result is at least
the stand-pat evaluation, and if stand-pat already reaches beta the search
fail-hard returns exactly beta (which may lie below stand-pat). -/
theorem qsearch_standpat_bound (stand_pat : Int) (ms : List (QMoveData × QTree))
    (alpha beta : Int) :
    (stand_pat < beta → stand_pat ≤ quiescence (QTree.node stand_pat false ms) alpha beta) ∧
    (beta ≤ stand_pat → quiescence (QTree.node stand_pat false ms) alpha beta = beta) := by
  constructor
  · intro hlt
    simp only [quiescence]
    split_ifs with h1 h2 h3 h4 h4
    · omega
    · obtain ⟨-, h2⟩ := h2
      simp only [DELTA_MARGIN] at h2
      omega
    · omega
    · omega
    · exact qloop_ge_best _ _ _ _ _ _
    · exact qloop_ge_best _ _ _ _ _ _
  · intro hge
    simp only [quiescence]
    rw [if_pos hge]

/-- C2 witness: an in-window node with no captures returns its raised alpha,
which is at least the stand-pat 100. -/
theorem qsearch_standpat_bound_witness :
    100 ≤ quiescence (QTree.node 100 false []) 200 150 :=
  (qsearch_standpat_bound 100 [] 200 150).1 (by decide)

/-- C7 counterexample: a legal non-capturing promotion (empty destination,
not en passant) is not among the moves quiescence considers, refuting the
claim that promotions are part of the examined move set. -/
theorem qsearch_move_set_cx :
    (⟨none, false, true, true⟩ : QMoveData).isPromo = true ∧
    (⟨none, false, true, true⟩ : QMoveData) ∉
      consideredCaptures
        (QTree.node 0 false [(⟨none, false, true, true⟩, QTree.node 0 false [])]) := by
  decide

/-- C7 amended: the move set examined by quiescence is exactly the legal
moves flagged `is_capture` (destination occupied or en passant); every
legal move with empty destination and no en passant — in particular every
non-capturing promotion — is excluded. -/
theorem qsearch_move_set (t : QTree) :
    consideredCaptures t = (t.moves.map Prod.fst).filter (fun m => m.is_cap) ∧
    ∀ (m : QMoveData) (child : QTree), (m, child) ∈ t.moves → m.victim = none →
      m.enPassant = false → m ∉ consideredCaptures t := by
  have hcomm : ∀ l : List (QMoveData × QTree),
      (l.filter fun mc => mc.1.is_cap).map Prod.fst
        = (l.map Prod.fst).filter fun m => m.is_cap := by
    intro l
    induction l with
    | nil => rfl
    | cons a r ih =>
      by_cases hc : a.1.is_cap <;> simp [List.filter_cons, hc, ih]
  constructor
  · simpa [consideredCaptures] using hcomm t.moves
  · intro m child hmem hv hep hin
    unfold consideredCaptures at hin
    rw [hcomm] at hin
    rw [List.mem_filter] at hin
    have hcap := hin.2
    simp [QMoveData.is_cap, hv, hep] at hcap

/-- C7 witness: a quiet non-promotion is likewise excluded from the
considered set. -/
theorem qsearch_move_set_witness :
    (⟨none, false, false, false⟩ : QMoveData) ∉
      consideredCaptures
        (QTree.node 0 false [(⟨none, false, false, false⟩, QTree.node 0 false [])]) :=
  (qsearch_move_set _).2 _ (QTree.node 0 false []) (List.mem_cons_self _ _) rfl rfl

/-- C8 counterexample: at depth 5 (not in check) the cached static eval is
available and futility pruning fires on a quiet non-checking late move with
`eval + 150·depth < alpha`, refuting the claim that no move is futility
pruned at depth > 3. -/
theorem futility_scope_cx :
    movePrune 5 false false true false 1 0 true (staticEvalCache false 5 0) 800
        = some PruneKind.futility ∧ ((5 : Int) > 3) := by
  decide

/-- C8 amended: futility pruning skips the current move exactly when the
static eval was cached (not in check and depth ≤ 7), the move is quiet,
non-checking and not the first, `eval + 150·depth < alpha`, and neither
history pruning nor quiet-SEE pruning already fired; in particular depths 4
to 7 can futility-prune, and only in-check nodes or depth > 7 cannot. -/
theorem futility_scope (depth : Int) (inCheck givesCheck isQuiet isKiller : Bool)
    (moveIdx : Nat) (histVal : Int) (seeGeNeg50 : Bool) (eval alpha : Int) :
    movePrune depth inCheck givesCheck isQuiet isKiller moveIdx histVal seeGeNeg50
        (staticEvalCache inCheck depth eval) alpha = some PruneKind.futility ↔
      (inCheck = false ∧ depth ≤ 7 ∧ isQuiet = true ∧ givesCheck = false ∧
        0 < moveIdx ∧ eval + 150 * depth < alpha ∧
        ¬(depth < 4 ∧ isKiller = false ∧ histVal < -3000 * depth) ∧
        ¬(depth ≤ 4 ∧ seeGeNeg50 = false)) := by
  constructor
  · intro hf
    unfold movePrune at hf
    split_ifs at hf with h1 h2
    · exact absurd hf (by simp)
    · exact absurd hf (by simp)
    · rcases hse : staticEvalCache inCheck depth eval with - | se
      · rw [hse] at hf
        exact absurd hf (by simp)
      · rw [hse] at hf
        rw [staticEvalCache_eq_some] at hse
        obtain ⟨hic, hd7, rfl⟩ := hse
        simp only at hf
        split_ifs at hf with h3
        · obtain ⟨hq, hgc, hidx, hmargin⟩ := h3
          refine ⟨hic, hd7, hq, by simpa using hgc, hidx, hmargin, ?_, ?_⟩
          · rintro ⟨hd4, hk, hh⟩
            exact h1 ⟨hd4, hq, by simp [hic], hgc, by simp [hk], hidx, hh⟩
          · rintro ⟨hd4, hsee⟩
            exact h2 ⟨hd4, hq, by simp [hic], hgc, hidx, by simp [hsee]⟩
  · rintro ⟨hic, hd7, hq, hgc, hidx, hmargin, hnh, hns⟩
    have hse : staticEvalCache inCheck depth eval = some eval :=
      (staticEvalCache_eq_some inCheck depth eval eval).mpr ⟨hic, hd7, rfl⟩
    unfold movePrune
    rw [if_neg, if_neg]
    · rw [hse]
      simp only
      rw [if_pos ⟨by simp [hq], by simp [hgc], hidx, hmargin⟩]
    · rintro ⟨hd4, -, -, -, -, hsee⟩
      exact hns ⟨hd4, by simpa using hsee⟩
    · rintro ⟨hd4, -, -, -, hk, -, hh⟩
      exact hnh ⟨hd4, by simpa using hk, hh⟩

/-- C3 counterexample: a stored LowerBound entry with score 120 probed at a
node with window (50, 100) and sufficient depth makes the search return the
stored score 120, not beta = 100: the cutoff is fail-soft. -/
theorem tt_probe_cutoff_cx :
    searchPreamble
        (TranspositionTable.store ⟨65536, fun _ => 0, 0⟩ 0 none (Score.cp 120) 5
          BoundType.lowerBound)
        0 3 3 false 50 100
      = PreambleOut.ret 120 none ∧ (120 : Int) ≠ 100 := by
  constructor
  · decide
  · decide

/-- C3 amended: when the node preamble reaches the TT probe (no repetition,
window already inside the mate-distance bounds) and the probe finds an
entry of sufficient depth, an Exact bound returns the ply-adjusted stored
score immediately; a LowerBound entry whose adjusted score reaches beta,
and an UpperBound entry whose adjusted score is at most alpha, likewise
return that stored score itself (fail-soft), not beta or alpha. -/
theorem tt_probe_cutoff (tt : TranspositionTable) (hash : Nat) (depth ply : Int)
    (isRep : Bool) (alpha beta : Int) (e : TTEntry)
    (hprobe : tt.probe hash = some e) (hdep : e.depthOf ≥ depth)
    (hrep : isRep = false)
    (ha : -SCORE_MATE + ply ≤ alpha) (hb : beta ≤ SCORE_MATE - ply) :
    (e.bound = BoundType.exact →
      searchPreamble tt hash depth ply isRep alpha beta
        = PreambleOut.ret ((e.scoreOf.from_tt ply).raw) e.bestMove) ∧
    (e.bound = BoundType.lowerBound → beta ≤ (e.scoreOf.from_tt ply).raw →
      searchPreamble tt hash depth ply isRep alpha beta
        = PreambleOut.ret ((e.scoreOf.from_tt ply).raw) e.bestMove) ∧
    (e.bound = BoundType.upperBound → (e.scoreOf.from_tt ply).raw ≤ alpha →
      searchPreamble tt hash depth ply isRep alpha beta
        = PreambleOut.ret ((e.scoreOf.from_tt ply).raw) e.bestMove) := by
  subst hrep
  have cA : ¬(alpha < -SCORE_MATE + ply) := by omega
  have cB : ¬(beta > SCORE_MATE - ply) := by omega
  simp only [searchPreamble]
  rw [if_neg (by simp)]
  rw [if_neg (fun hc => cA hc.1)]
  rw [if_neg (fun hc => cB hc.1)]
  rw [hprobe]
  simp only
  rw [if_pos hdep]
  refine ⟨?_, ?_, ?_⟩
  · intro hbound
    rw [hbound]
  · intro hbound hts
    rw [hbound]
    simp only
    rw [if_neg cB, if_pos hts]
  · intro hbound hts
    rw [hbound]
    simp only
    rw [if_neg cA, if_pos hts]

/-- C3 witness: the fail-soft LowerBound cutoff at the concrete table of the
counterexample. -/
theorem tt_probe_cutoff_witness :
    searchPreamble
        (TranspositionTable.store ⟨65536, fun _ => 0, 0⟩ 0 none (Score.cp 120) 5
          BoundType.lowerBound)
        0 3 3 false 50 100
      = PreambleOut.ret
          (((TTEntry.new 0 none (Score.cp 120) 5 BoundType.lowerBound 0).scoreOf.from_tt 3).raw)
          (TTEntry.new 0 none (Score.cp 120) 5 BoundType.lowerBound 0).bestMove :=
  (tt_probe_cutoff _ 0 3 3 false 50 100 _ (by decide) (by decide) rfl (by decide)
    (by decide)).2.1 (by decide) (by decide)

/-- C4 counterexample: storing the move a1a1-without-promotion (whose 16-bit
encoding is 0) and probing back returns an entry whose best move is `None`,
not the stored move: the claim fails for the all-zero encoding alias. -/
theorem tt_store_then_probe_cx :
    (TranspositionTable.store ⟨1024, fun _ => 0, 0⟩ 0 (some ⟨0, 0, none⟩)
        (Score.cp 10) 3 BoundType.exact).probe 0
      = some (TTEntry.new 0 (some ⟨0, 0, none⟩) (Score.cp 10) 3 BoundType.exact 0) ∧
    (TTEntry.new 0 (some ⟨0, 0, none⟩) (Score.cp 10) 3 BoundType.exact 0).bestMove
      ≠ some ⟨0, 0, none⟩ := by
  constructor
  · decide
  · decide

/-- C4 amended: storing into an empty cell with representable score (i16),
depth (i8), a real bound, and a faithfully encodable best move (promotion
in none/N/B/R/Q and not the a1a1 zero-encoding alias), then probing the
same hash with no intervening store, returns exactly the stored entry; and
probe yields an entry only when the 16-bit key fragment matches and the
bound is not None. -/
theorem tt_store_then_probe :
    (∀ (size gen hash : Nat) (bm : Option Move) (s d : Int) (b : BoundType),
      -32768 ≤ s → s ≤ 32767 → -128 ≤ d → d ≤ 127 → b ≠ BoundType.noBound →
      (bm = none ∨ ∃ mv, bm = some mv ∧
        (mv.promotion = none ∨ mv.promotion = some Piece.knight ∨
          mv.promotion = some Piece.bishop ∨ mv.promotion = some Piece.rook ∨
          mv.promotion = some Piece.queen) ∧
        ¬((mv.source : Nat) = 0 ∧ (mv.dest : Nat) = 0 ∧ mv.promotion = none)) →
      ∃ e, (TranspositionTable.store ⟨size, fun _ => 0, gen⟩ hash bm (Score.cp s) d b).probe hash
          = some e ∧
        e.scoreOf = Score.cp s ∧ e.depthOf = d ∧ e.bound = b ∧ e.bestMove = bm) ∧
    (∀ (t : TranspositionTable) (hash : Nat) (e : TTEntry),
      t.probe hash = some e → e.matches hash = true ∧ e.bound ≠ BoundType.noBound) := by
  constructor
  · intro size gen hash bm s d b hs1 hs2 hd1 hd2 hbn hbm
    have htn_lt : b.toNat < 4 := by cases b <;> simp [BoundType.toNat]
    have htn_pos : 1 ≤ b.toNat := by
      cases b
      · exact absurd rfl hbn
      all_goals simp [BoundType.toNat]
    set E := TTEntry.new hash bm (Score.cp s) d b gen with hE
    have hkey : E.key < 2 ^ 16 := by
      simp only [hE, TTEntry.new]
      omega
    have hbm16 : E.best_move < 2 ^ 16 := encode_move_lt bm
    have hsc : E.score = s := by
      simp only [hE, TTEntry.new, wrapI16, Score.cp]
      omega
    have hdp : E.depth = d := by
      simp only [hE, TTEntry.new, wrapI8]
      omega
    have hba : E.bound_and_age < 2 ^ 8 := by
      simp only [hE, TTEntry.new]
      omega
    have hba1 : 1 ≤ E.bound_and_age := by
      simp only [hE, TTEntry.new]
      omega
    have hrt : TTEntry.from_u64 E.to_u64 = E :=
      from_u64_to_u64 E hkey hbm16 (by omega) (by omega) (by omega) (by omega) hba
    have hbound : E.bound = b := by
      have hval : E.bound_and_age = b.toNat + gen % 64 * 4 := by
        simp only [hE, TTEntry.new]
      rw [TTEntry.bound, hval, fromU8_pack]
    have hnotempty : ¬E.isEmptyEntry := by
      simp [TTEntry.isEmptyEntry, hbound]
      exact hbn
    have hmat : E.matches hash = true := by
      simp [hE, TTEntry.new, TTEntry.matches]
    have hne0 : E.to_u64 ≠ 0 := by
      simp only [TTEntry.to_u64]
      omega
    refine ⟨E, ?_, by simp [TTEntry.scoreOf, hsc], by simp [TTEntry.depthOf, hdp],
      hbound, ?_⟩
    · show TranspositionTable.probe _ hash = some E
      simp only [TranspositionTable.store, TranspositionTable.generation]
      rw [if_pos (Or.inl (by decide))]
      simp only [TranspositionTable.probe, TranspositionTable.index, if_true]
      rw [if_neg hne0, hrt, if_pos ⟨hmat, hnotempty⟩]
    · rcases hbm with rfl | ⟨mv, rfl, hp, hz⟩
      · have hzero : E.best_move = 0 := by
          simp [hE, TTEntry.new, encode_move]
        rw [TTEntry.bestMove, hzero]
        rfl
      · have henc : E.best_move = encode_move (some mv) := by
          simp only [hE, TTEntry.new]
        rw [TTEntry.bestMove, henc, decode_encode mv hp hz]
  · intro t hash e hp
    simp only [TranspositionTable.probe] at hp
    split_ifs at hp with h1 h2
    · rw [Option.some_inj] at hp
      subst hp
      refine ⟨h2.1, ?_⟩
      have h22 := h2.2
      simpa [TTEntry.isEmptyEntry] using h22

/-- C4 witness: storing score 100 at depth 5 with an Exact bound and best
move e2e4 into a fresh 1024-entry table and probing it back. -/
theorem tt_store_then_probe_witness :
    ∃ e, (TranspositionTable.store ⟨1024, fun _ => 0, 0⟩ 1 (some ⟨12, 28, none⟩)
            (Score.cp 100) 5 BoundType.exact).probe 1 = some e ∧
      e.scoreOf = Score.cp 100 ∧ e.depthOf = 5 ∧ e.bound = BoundType.exact ∧
      e.bestMove = some ⟨12, 28, none⟩ :=
  tt_store_then_probe.1 1024 0 1 (some ⟨12, 28, none⟩) 100 5 BoundType.exact
    (by decide) (by decide) (by decide) (by decide) (by decide)
    (Or.inr ⟨⟨12, 28, none⟩, rfl, Or.inl rfl, by decide⟩)

/-- C8 witness: a depth-2 quiet killer move with good SEE is skipped by
futility pruning (history pruning exempts killers, SEE pruning passes). -/
theorem futility_scope_witness :
    movePrune 2 false false true true 1 0 true (staticEvalCache false 2 0) 1000
      = some PruneKind.futility :=
  (futility_scope 2 false false true true 1 0 true 0 1000).mpr (by decide)

end Chessgo
